import Mathlib

/-!
Verification of the name identity resolution engine of the
`datascience_biodiversity` repository (`notebooks/modules/cleaning/names.py`,
class `NamesMap`).

Python `dict[str, str]` values are embedded as insertion-ordered association
lists with unique keys (`RMap`); `dict` lookup, insert-or-replace, `pop` and
key iteration become `dlookup`, `dinsert`, `dpop` and `dkeys`.  The chained
dereference `NamesMap._getRef` is embedded fuel-first (`getRefAux`), and we
prove the fuel `|index| + 1` always suffices, so fuel exhaustion
(`RefOut.noFuel`) is unreachable.
-/

set_option maxHeartbeats 1000000

/-- A Python `dict` from `str` to `str`: an insertion-ordered association list.
All dictionaries built by the source keep their keys unique. -/
abbrev RMap := List (String × String)

/-- `dict` lookup: value of the first entry with the given key. -/
def dlookup : RMap → String → Option String
  | [], _ => none
  | (k, v) :: rest, key => if k = key then some v else dlookup rest key

/-- `dict.keys()`, in insertion order. -/
def dkeys (m : RMap) : List String := m.map Prod.fst

/-- `d[k] = v` on a `dict`: replace the value at the first entry with key `k`,
or append a fresh entry at the end. -/
def dinsert : RMap → String → String → RMap
  | [], k, v => [(k, v)]
  | (k0, v0) :: rest, k, v =>
    if k0 = k then (k0, v) :: rest else (k0, v0) :: dinsert rest k v

/-- `dict(pairs)`: build a dict from a pair sequence, later bindings for the
same key overwriting earlier ones in place. -/
def dictOfList (l : List (String × String)) : RMap :=
  l.foldl (fun m p => dinsert m p.1 p.2) []

/-- `d.update(d2)` on dicts. -/
def dupdate (m : RMap) (d : RMap) : RMap :=
  d.foldl (fun acc p => dinsert acc p.1 p.2) m

/-- `d.pop(k)`: remove the entry with key `k` and return its value; `none`
models the `KeyError` raised when `k` is absent. -/
def dpop : RMap → String → Option (String × RMap)
  | [], _ => none
  | (k0, v0) :: rest, key =>
    if k0 = key then some (v0, rest)
    else
      match dpop rest key with
      | none => none
      | some (v, m') => some (v, (k0, v0) :: m')

/-- The last binding for `k` in a raw pair list (the binding that survives
`dict(pairs)` / sequential `d[s] = t` assignment). -/
def lastVal : List (String × String) → String → Option String
  | [], _ => none
  | p :: rest, k =>
    match lastVal rest k with
    | some v => some v
    | none => if p.1 = k then some p.2 else none

/-- First-occurrence deduplication, as `collections.Counter` orders its keys. -/
def firstDedup : List String → List String
  | [] => []
  | x :: xs => x :: (firstDedup xs).filter (fun y => y ≠ x)

/-- Insert a pair into a key-sorted pair list (helper for `json.dump` with
`sort_keys=True`). -/
def insertByKey (p : String × String) : List (String × String) → List (String × String)
  | [] => [p]
  | q :: qs => if q.1 < p.1 then q :: insertByKey p qs else p :: q :: qs

/-- Key order produced by `json.dump(..., sort_keys=True)` followed by
`json.load` (which preserves file order). -/
def sortByKey (l : List (String × String)) : List (String × String) :=
  l.foldr insertByKey []

/-- The state of a `NamesMap` instance: the (optional) normalization function,
the primitive-to-normalized base map `_map_prim_norm`, and the remapping index
`_remappingIndex` (`none` models Python `None`). -/
structure NamesMap where
  _normalizationFunc : Option (String → String)
  _map_prim_norm : RMap
  _remappingIndex : Option RMap

/-- `NamesMap.__init__` on the direct construction path: the base map is
`dict((n, normalizationFunc(n)) for n in names)` and the remapping index is
taken verbatim from the `remappingIndex` argument. -/
def mkNamesMap (names : List String) (normalizationFunc : String → String)
    (remappingIndex : Option RMap) : NamesMap :=
  { _normalizationFunc := some normalizationFunc
    _map_prim_norm := dictOfList (names.map fun n => (n, normalizationFunc n))
    _remappingIndex := remappingIndex }

/-- Outcome of `NamesMap._getRef`: a resolved endpoint, the
`RuntimeError("Loopback detected", start, chain)` data, or fuel exhaustion
(proved unreachable below). -/
inductive RefOut where
  | ok (n : String)
  | loopback (start : String) (chain : List String)
  | noFuel
  deriving DecidableEq

/-- `RefOut.isOk r` holds when resolution returned an endpoint. -/
def RefOut.isOk : RefOut → Bool
  | .ok _ => true
  | _ => false

/-- The `while` loop of `NamesMap._getRef`: while `n` is a key of the index,
append `n` to the chain, step to its image, and fail if the image was already
visited (appending it to the chain first). -/
def getRefAux (m : RMap) (start : String) : Nat → String → List String → RefOut
  | 0, _, _ => RefOut.noFuel
  | fuel + 1, n, chain =>
    match dlookup m n with
    | none => RefOut.ok n
    | some t =>
      if t ∈ chain ++ [n] then RefOut.loopback start (chain ++ [n] ++ [t])
      else getRefAux m start fuel t (chain ++ [n])

/-- `NamesMap._getRef(n)` over a remapping index `m`: follow all chained
references starting from `n`.  The fuel `m.length + 1` is proved sufficient. -/
def _getRef (m : RMap) (n : String) : RefOut :=
  getRefAux m n (m.length + 1) n []

/-- One record of `NamesMap._get_loopback_inconsistencies`: the message
`"Loopback detected"`, the offending start key, and the chain at detection. -/
abbrev Inconsistency := String × String × List String

/-- `NamesMap._get_loopback_inconsistencies`: try `_getRef` on every key of the
remapping index, accumulating the data of every `RuntimeError`; `none` when the
scan is clean. -/
def _get_loopback_inconsistencies (m : RMap) : Option (List Inconsistency) :=
  let incons := (dkeys m).filterMap fun k =>
    match _getRef m k with
    | RefOut.loopback s c => some ("Loopback detected", s, c)
    | _ => none
  if incons = [] then none else some incons

/-- `NamesMap.getInconsistencies` over an initialized remapping index.  The
source wraps the same loopback data (optionally pretty-printed into a message
string); it is `None` exactly when `_get_loopback_inconsistencies` is. -/
def getInconsistencies (m : RMap) : Option (List Inconsistency) :=
  _get_loopback_inconsistencies m

/-- `NamesMap._remove_selfloops`: pop every key whose image is itself.  On a
dict (unique keys) this is exactly filtering out the self-loop entries. -/
def _remove_selfloops (m : RMap) : RMap :=
  m.filter fun p => !(p.1 == p.2)

/-- The duplicated-source keys computed by `NamesMap.remap` for its warning:
`Counter` order is first occurrence. -/
def duplicatedKeys (remaps : List (String × String)) : List String :=
  (firstDedup (remaps.map Prod.fst)).filter fun s =>
    decide ((remaps.map Prod.fst).count s > 1)

/-- `NamesMap.remap(remaps, fromScratch)`: warn on duplicated sources (the
warning's keys are the second component of the result), apply the pairs in
order (last write wins), drop self-loops, and return the post-mutation
consistency check (third component). -/
def remap (nm : NamesMap) (remaps : List (String × String)) (fromScratch : Bool) :
    NamesMap × List String × Option (List Inconsistency) :=
  let idx0 : Option RMap := if fromScratch then none else nm._remappingIndex
  let idx1 : RMap := match idx0 with | none => [] | some m => m
  let idx2 : RMap := remaps.foldl (fun m p => dinsert m p.1 p.2) idx1
  let idx3 : RMap := _remove_selfloops idx2
  ({ nm with _remappingIndex := some idx3 }, duplicatedKeys remaps, getInconsistencies idx3)

/-- The loop body of `NamesMap.getMap(remap=True)`: rewrite each base-map value
through `_getRef`, aborting on the first `RuntimeError` (so no partial map is
produced).  `RefOut.noFuel` is mapped to a placeholder error; it is proved
unreachable. -/
def resolveEntries (m : RMap) : List (String × String) → Except (String × List String) RMap
  | [] => Except.ok []
  | (s, t) :: rest =>
    match _getRef m t with
    | RefOut.ok r =>
      match resolveEntries m rest with
      | Except.ok res => Except.ok ((s, r) :: res)
      | Except.error e => Except.error e
    | RefOut.loopback st c => Except.error (st, c)
    | RefOut.noFuel => Except.error (t, [])

/-- `NamesMap.getMap(remap)`: a copy of the base map, with values
de-referenced through the remapping index when `remap` is true and the index
is initialized. -/
def getMap (nm : NamesMap) (remap : Bool) : Except (String × List String) RMap :=
  match nm._remappingIndex with
  | some m => if remap then resolveEntries m nm._map_prim_norm else Except.ok nm._map_prim_norm
  | none => Except.ok nm._map_prim_norm

/-- Errors surfaced by the embedded operations.  `configurationError` is the
failure of calling an absent normalization function (Python raises `TypeError:
'NoneType' object is not callable`; the specification's taxonomy names this
situation `ConfigurationError`). -/
inductive PyError where
  | keyError
  | attributeError
  | configurationError
  deriving DecidableEq

/-- `NamesMap.addNames(names, normalizationFunc, updateExistingKeys)`: build
`dict((n, normFunc(n)) for n in names)` with the instance function as default,
drop the keys already present unless `updateExistingKeys`, and update the base
map.  With no function available the first name's normalization fails. -/
def addNames (nm : NamesMap) (names : List String)
    (normalizationFunc : Option (String → String)) (updateExistingKeys : Bool) :
    Except PyError NamesMap :=
  let normFunc := match normalizationFunc with
    | some f => some f
    | none => nm._normalizationFunc
  match normFunc with
  | none =>
    if names = [] then Except.ok nm
    else Except.error PyError.configurationError
  | some f =>
    let d := dictOfList (names.map fun n => (n, f n))
    let d := if updateExistingKeys then d
      else d.filter fun p => !((dkeys nm._map_prim_norm).contains p.1)
    Except.ok { nm with _map_prim_norm := dupdate nm._map_prim_norm d }

/-- `NamesMap.setEndpoint(key)`: `self._remappingIndex.pop(key)` — `KeyError`
when the key is absent, `AttributeError` when the index is `None`. -/
def setEndpoint (nm : NamesMap) (key : String) : Except PyError (String × NamesMap) :=
  match nm._remappingIndex with
  | none => Except.error PyError.attributeError
  | some m =>
    match dpop m key with
    | none => Except.error PyError.keyError
    | some (v, m') => Except.ok (v, { nm with _remappingIndex := some m' })

/-- The JSON record written by `NamesMap.write_toJson` and read by
`read_NamesMap_fromJson`. -/
structure JsonRecord where
  _map_prim_norm : RMap
  _remappingIndex : Option RMap
  deriving DecidableEq

/-- `NamesMap.write_toJson(filename, flatten)`: store the base map and the
remapping index (the fully-resolved map and `{}` when `flatten`), with keys
sorted by `json.dump(..., sort_keys=True)`. -/
def write_toJson (nm : NamesMap) (flatten : Bool) :
    Except (String × List String) JsonRecord :=
  if flatten then
    match getMap nm true with
    | Except.ok m => Except.ok ⟨sortByKey m, some []⟩
    | Except.error e => Except.error e
  else
    Except.ok ⟨sortByKey nm._map_prim_norm, nm._remappingIndex.map sortByKey⟩

/-- `read_NamesMap_fromJson(filepath, normalizationFunc)`: rebuild a `NamesMap`
verbatim from the persisted record through the constructor's load path. -/
def read_NamesMap_fromJson (rec : JsonRecord) (normalizationFunc : Option (String → String)) :
    NamesMap :=
  { _normalizationFunc := normalizationFunc
    _map_prim_norm := rec._map_prim_norm
    _remappingIndex := rec._remappingIndex }

/-- A list is a valid dereference chain when each element maps to the next
under the index. -/
def isStepChain (m : RMap) : List String → Prop
  | [] => True
  | [_] => True
  | a :: b :: rest => dlookup m a = some b ∧ isStepChain m (b :: rest)

/-! ## Dictionary lemmas -/

@[simp] theorem dkeys_nil : dkeys [] = [] := rfl

@[simp] theorem dkeys_cons (p : String × String) (rest : RMap) :
    dkeys (p :: rest) = p.1 :: dkeys rest := rfl

theorem mem_dkeys {m : RMap} {k : String} : k ∈ dkeys m ↔ ∃ v, (k, v) ∈ m := by
  constructor
  · intro h
    rcases List.mem_map.mp h with ⟨⟨a, b⟩, hp, he⟩
    cases he
    exact ⟨b, hp⟩
  · rintro ⟨v, hv⟩
    exact List.mem_map.mpr ⟨(k, v), hv, rfl⟩

theorem dlookup_dinsert (m : RMap) (k v k' : String) :
    dlookup (dinsert m k v) k' = if k = k' then some v else dlookup m k' := by
  induction m with
  | nil => by_cases h : k = k' <;> simp [dinsert, dlookup, h]
  | cons p rest ih =>
    obtain ⟨k0, v0⟩ := p
    by_cases h0 : k0 = k
    · subst h0
      by_cases h1 : k0 = k' <;> simp [dinsert, dlookup, h1]
    · by_cases h1 : k0 = k'
      · subst h1
        have h2 : ¬ k = k0 := fun h => h0 h.symm
        simp [dinsert, dlookup, h0, h2]
      · simp [dinsert, dlookup, h0, h1, ih]

theorem dlookup_mem {m : RMap} {k v : String} (h : dlookup m k = some v) : (k, v) ∈ m := by
  induction m with
  | nil => simp [dlookup] at h
  | cons p rest ih =>
    obtain ⟨k0, v0⟩ := p
    by_cases h0 : k0 = k
    · subst h0
      simp only [dlookup, if_pos rfl] at h
      cases h
      exact List.mem_cons_self _ _
    · simp only [dlookup, if_neg h0] at h
      exact List.mem_cons_of_mem _ (ih h)

theorem dlookup_eq_none_iff (m : RMap) (k : String) :
    dlookup m k = none ↔ k ∉ dkeys m := by
  induction m with
  | nil => simp [dlookup]
  | cons p rest ih =>
    obtain ⟨k0, v0⟩ := p
    by_cases h0 : k0 = k
    · subst h0
      simp [dlookup]
    · simp only [dlookup, if_neg h0, dkeys_cons, List.mem_cons]
      rw [ih]
      constructor
      · intro h hc
        rcases hc with hc | hc
        · exact h0 hc.symm
        · exact h hc
      · intro h hc
        exact h (Or.inr hc)

theorem dlookup_isSome_iff (m : RMap) (k : String) :
    (dlookup m k).isSome = true ↔ k ∈ dkeys m := by
  rcases h : dlookup m k with _ | v
  · simp [(dlookup_eq_none_iff m k).mp h]
  · simp only [Option.isSome_some, true_iff]
    exact mem_dkeys.mpr ⟨v, dlookup_mem h⟩

theorem dlookup_eq_some_of_mem_nodup {m : RMap} (hn : (dkeys m).Nodup)
    {k v : String} (h : (k, v) ∈ m) : dlookup m k = some v := by
  induction m with
  | nil => simp at h
  | cons p rest ih =>
    obtain ⟨k0, v0⟩ := p
    simp only [dkeys_cons, List.nodup_cons] at hn
    rcases List.mem_cons.mp h with h | h
    · rw [Prod.mk.injEq] at h
      obtain ⟨h1, h2⟩ := h
      subst h1
      subst h2
      simp [dlookup]
    · have hk : ¬ k0 = k := by
        intro he
        subst he
        exact hn.1 (mem_dkeys.mpr ⟨v, h⟩)
      simp only [dlookup, if_neg hk]
      exact ih hn.2 h

theorem dkeys_dinsert (m : RMap) (k v : String) :
    dkeys (dinsert m k v) = if k ∈ dkeys m then dkeys m else dkeys m ++ [k] := by
  induction m with
  | nil => simp [dinsert]
  | cons p rest ih =>
    obtain ⟨k0, v0⟩ := p
    by_cases h0 : k0 = k
    · subst h0
      simp [dinsert]
    · have h1 : ¬ k = k0 := fun h => h0 h.symm
      by_cases hm : k ∈ dkeys rest
      · simp [dinsert, h0, ih, hm, h1]
      · simp [dinsert, h0, ih, hm, h1]

theorem nodup_dkeys_dinsert {m : RMap} (hn : (dkeys m).Nodup) (k v : String) :
    (dkeys (dinsert m k v)).Nodup := by
  rw [dkeys_dinsert]
  by_cases h : k ∈ dkeys m
  · simpa [h] using hn
  · simp only [if_neg h]
    simpa [List.nodup_append] using ⟨hn, h⟩

theorem nodup_dkeys_foldl_dinsert {m0 : RMap} (hn : (dkeys m0).Nodup)
    (l : List (String × String)) :
    (dkeys (l.foldl (fun m p => dinsert m p.1 p.2) m0)).Nodup := by
  induction l generalizing m0 with
  | nil => simpa using hn
  | cons p rest ih =>
    simp only [List.foldl_cons]
    exact ih (nodup_dkeys_dinsert hn p.1 p.2)

theorem dlookup_foldl_dinsert (l : List (String × String)) (m0 : RMap) (k : String) :
    dlookup (l.foldl (fun m p => dinsert m p.1 p.2) m0) k =
      match lastVal l k with
      | some v => some v
      | none => dlookup m0 k := by
  induction l generalizing m0 with
  | nil => simp [lastVal]
  | cons p rest ih =>
    obtain ⟨k0, v0⟩ := p
    simp only [List.foldl_cons, ih, lastVal]
    rcases h : lastVal rest k with _ | v
    · simp only [dlookup_dinsert]
      by_cases h0 : k0 = k <;> simp [h0]
    · rfl

theorem lastVal_eq_none_of_not_mem {l : List (String × String)} {k : String}
    (h : k ∉ l.map Prod.fst) : lastVal l k = none := by
  induction l with
  | nil => rfl
  | cons p rest ih =>
    simp only [List.map_cons, List.mem_cons] at h
    push_neg at h
    have h1 : ¬ p.1 = k := fun he => h.1 he.symm
    simp [lastVal, ih h.2, h1]

theorem lastVal_map_self {names : List String} (f : String → String) {p : String}
    (hp : p ∈ names) :
    lastVal (names.map fun n => (n, f n)) p = some (f p) := by
  induction names with
  | nil => simp at hp
  | cons n rest ih =>
    simp only [List.map_cons, lastVal]
    rcases List.mem_cons.mp hp with h | h
    · subst h
      rcases hrest : lastVal (rest.map fun n => (n, f n)) p with _ | v
      · simp
      · have hpm : p ∈ rest := by
          by_contra hnot
          have hnk : p ∉ (rest.map fun n => (n, f n)).map Prod.fst := by
            simpa [List.map_map, Function.comp] using hnot
          rw [lastVal_eq_none_of_not_mem hnk] at hrest
          exact Option.noConfusion hrest
        rw [ih hpm] at hrest
        simpa using hrest.symm
    · rw [ih h]

theorem dlookup_dictOfList (l : List (String × String)) (k : String) :
    dlookup (dictOfList l) k = lastVal l k := by
  rw [dictOfList, dlookup_foldl_dinsert]
  rcases h : lastVal l k with _ | v <;> simp [dlookup]

/-! ## Filter, pop and deduplication lemmas -/

theorem dlookup_filter_of_pred {m : RMap} {pf : String × String → Bool} {k v : String}
    (h : dlookup m k = some v) (hp : pf (k, v) = true) :
    dlookup (m.filter pf) k = some v := by
  induction m with
  | nil => simp [dlookup] at h
  | cons p rest ih =>
    obtain ⟨k0, v0⟩ := p
    by_cases h0 : k0 = k
    · subst h0
      simp only [dlookup, if_pos rfl] at h
      cases h
      simp [List.filter_cons, hp, dlookup]
    · simp only [dlookup, if_neg h0] at h
      rcases hf : pf (k0, v0) with _ | _
      · have he : ((k0, v0) :: rest).filter pf = rest.filter pf := by
          simp [List.filter_cons, hf]
        rw [he]
        exact ih h
      · have he : ((k0, v0) :: rest).filter pf = (k0, v0) :: rest.filter pf := by
          simp [List.filter_cons, hf]
        rw [he]
        simp only [dlookup, if_neg h0]
        exact ih h

theorem dlookup_filter_mem {m : RMap} {pf : String × String → Bool} {k v : String}
    (h : dlookup (m.filter pf) k = some v) : (k, v) ∈ m ∧ pf (k, v) = true := by
  have := dlookup_mem h
  rw [List.mem_filter] at this
  exact this

theorem nodup_dkeys_filter {m : RMap} (hn : (dkeys m).Nodup) (pf : String × String → Bool) :
    (dkeys (m.filter pf)).Nodup := by
  have hs : (m.filter pf).Sublist m := List.filter_sublist m
  exact (hs.map Prod.fst).nodup hn

theorem dlookup_filter_none_of_nodup {m : RMap} (hn : (dkeys m).Nodup)
    {pf : String × String → Bool} {k v : String}
    (h : dlookup m k = some v) (hp : pf (k, v) = false) :
    dlookup (m.filter pf) k = none := by
  rw [dlookup_eq_none_iff]
  intro hk
  rcases mem_dkeys.mp hk with ⟨w, hw⟩
  rw [List.mem_filter] at hw
  have : dlookup m k = some w := dlookup_eq_some_of_mem_nodup hn hw.1
  rw [h] at this
  cases this
  rw [hw.2] at hp
  exact Bool.noConfusion hp

theorem dpop_eq_none_iff (m : RMap) (k : String) :
    dpop m k = none ↔ dlookup m k = none := by
  induction m with
  | nil => simp [dpop, dlookup]
  | cons p rest ih =>
    obtain ⟨k0, v0⟩ := p
    by_cases h0 : k0 = k
    · subst h0
      simp [dpop, dlookup]
    · simp only [dpop, dlookup, if_neg h0]
      rw [← ih]
      rcases h : dpop rest k with _ | pr
      · simp
      · obtain ⟨v, m'⟩ := pr
        simp

theorem dpop_some {m : RMap} {k v : String} {m' : RMap}
    (h : dpop m k = some (v, m')) :
    dlookup m k = some v ∧
    (∀ k', k' ≠ k → dlookup m' k' = dlookup m k') ∧
    ((dkeys m).Nodup → dlookup m' k = none) := by
  induction m generalizing m' with
  | nil => simp [dpop] at h
  | cons p rest ih =>
    obtain ⟨k0, v0⟩ := p
    by_cases h0 : k0 = k
    · subst h0
      rw [show dpop ((k0, v0) :: rest) k0 = some (v0, rest) from by simp [dpop]] at h
      rw [Option.some.injEq, Prod.mk.injEq] at h
      obtain ⟨h1, h2⟩ := h
      subst h1
      subst h2
      refine ⟨by simp [dlookup], fun k' hk' => ?_, fun hn => ?_⟩
      · have : ¬ k0 = k' := fun he => hk' he.symm
        simp [dlookup, this]
      · simp only [dkeys_cons, List.nodup_cons] at hn
        exact (dlookup_eq_none_iff _ _).mpr hn.1
    · simp only [dpop, if_neg h0] at h
      rcases hr : dpop rest k with _ | pr
      · rw [hr] at h
        exact Option.noConfusion h
      · obtain ⟨w, m''⟩ := pr
        rw [hr] at h
        rw [Option.some.injEq, Prod.mk.injEq] at h
        obtain ⟨h1, h2⟩ := h
        subst h1
        subst h2
        obtain ⟨ih1, ih2, ih3⟩ := ih hr
        refine ⟨by simp [dlookup, if_neg h0, ih1], fun k' hk' => ?_, fun hn => ?_⟩
        · by_cases hk0 : k0 = k'
          · subst hk0
            simp [dlookup]
          · simp [dlookup, if_neg hk0, ih2 k' hk']
        · simp only [dkeys_cons, List.nodup_cons] at hn
          simp [dlookup, if_neg h0, ih3 hn.2]

theorem mem_firstDedup {l : List String} {s : String} :
    s ∈ firstDedup l ↔ s ∈ l := by
  induction l with
  | nil => simp [firstDedup]
  | cons x xs ih =>
    simp only [firstDedup, List.mem_cons]
    constructor
    · rintro (rfl | h)
      · exact Or.inl rfl
      · rw [List.mem_filter] at h
        exact Or.inr (ih.mp h.1)
    · rintro (rfl | h)
      · exact Or.inl rfl
      · by_cases he : s = x
        · exact Or.inl he
        · refine Or.inr (List.mem_filter.mpr ⟨ih.mpr h, by simp [he]⟩)

/-! ## Chain resolution lemmas -/

theorem length_le_of_nodup_subset {l l' : List String} (hn : l.Nodup)
    (hs : ∀ x ∈ l, x ∈ l') : l.length ≤ l'.length := by
  calc l.length = l.toFinset.card := (List.toFinset_card_of_nodup hn).symm
    _ ≤ l'.toFinset.card := Finset.card_le_card fun x hx =>
        List.mem_toFinset.mpr (hs x (List.mem_toFinset.mp hx))
    _ ≤ l'.length := List.toFinset_card_le l'

theorem getRefAux_ne_noFuel (m : RMap) (start : String) :
    ∀ (fuel : Nat) (n : String) (chain : List String), chain.Nodup →
      (∀ x ∈ chain, x ∈ dkeys m) → n ∉ chain →
      m.length + 1 ≤ fuel + chain.length →
      getRefAux m start fuel n chain ≠ RefOut.noFuel := by
  intro fuel
  induction fuel with
  | zero =>
    intro n chain hnd hsub hn hfuel
    exfalso
    have hlen : chain.length ≤ m.length := by
      have := length_le_of_nodup_subset hnd hsub
      simpa [dkeys] using this
    omega
  | succ fuel ih =>
    intro n chain hnd hsub hn hfuel
    rcases hl : dlookup m n with _ | t
    · simp [getRefAux, hl]
    · by_cases hmem : t ∈ chain ++ [n]
      · simp [getRefAux, hl, hmem]
      · simp only [getRefAux, hl, if_neg hmem]
        apply ih t (chain ++ [n])
        · simp only [List.nodup_append, List.nodup_cons, List.nodup_nil]
          refine ⟨hnd, by simp, ?_⟩
          intro a ha hb
          simp only [List.mem_singleton] at hb
          subst hb
          exact hn ha
        · intro x hx
          rcases List.mem_append.mp hx with hx | hx
          · exact hsub x hx
          · simp only [List.mem_singleton] at hx
            subst hx
            exact (dlookup_isSome_iff m x).mp (by simp [hl])
        · simpa using hmem
        · simp only [List.length_append, List.length_singleton]
          omega

theorem getRef_ne_noFuel (m : RMap) (n : String) : _getRef m n ≠ RefOut.noFuel := by
  apply getRefAux_ne_noFuel m n (m.length + 1) n [] List.nodup_nil (by simp) (by simp)
  simp

theorem getRefAux_ok (m : RMap) (start : String) :
    ∀ (fuel : Nat) (n : String) (chain : List String) (r : String),
      getRefAux m start fuel n chain = RefOut.ok r → dlookup m r = none := by
  intro fuel
  induction fuel with
  | zero =>
    intro n chain r h
    simp [getRefAux] at h
  | succ fuel ih =>
    intro n chain r h
    rcases hl : dlookup m n with _ | t
    · simp only [getRefAux, hl, RefOut.ok.injEq] at h
      subst h
      exact hl
    · by_cases hmem : t ∈ chain ++ [n]
      · simp only [getRefAux, hl, if_pos hmem] at h
        exact RefOut.noConfusion h
      · simp only [getRefAux, hl, if_neg hmem] at h
        exact ih t (chain ++ [n]) r h

theorem getRef_ok_endpoint {m : RMap} {n r : String}
    (h : _getRef m n = RefOut.ok r) : dlookup m r = none :=
  getRefAux_ok m n (m.length + 1) n [] r h

theorem isStepChain_snoc {m : RMap} :
    ∀ {l : List String} {a b : String}, isStepChain m (l ++ [a]) →
      dlookup m a = some b → isStepChain m (l ++ [a, b]) := by
  intro l
  induction l with
  | nil =>
    intro a b _ hl
    simpa [isStepChain] using hl
  | cons x xs ih =>
    intro a b hc hl
    rcases hxs : xs with _ | ⟨y, ys⟩
    · subst hxs
      simp only [List.nil_append, List.cons_append, isStepChain] at hc ⊢
      exact ⟨hc.1, by simpa [isStepChain] using hl⟩
    · subst hxs
      simp only [List.cons_append, isStepChain] at hc ⊢
      exact ⟨hc.1, by simpa using ih (by simpa using hc.2) hl⟩

theorem getRefAux_loopback_chain (m : RMap) (start : String) :
    ∀ (fuel : Nat) (n : String) (chain : List String) (s : String) (c : List String),
      isStepChain m (chain ++ [n]) →
      (chain ++ [n]).head? = some start →
      getRefAux m start fuel n chain = RefOut.loopback s c →
      s = start ∧ c.head? = some start ∧ isStepChain m c ∧
        ∃ c₀ x, c = c₀ ++ [x] ∧ x ∈ c₀ := by
  intro fuel
  induction fuel with
  | zero =>
    intro n chain s c _ _ h
    simp [getRefAux] at h
  | succ fuel ih =>
    intro n chain s c hchain hhead h
    rcases hl : dlookup m n with _ | t
    · simp [getRefAux, hl] at h
    · by_cases hmem : t ∈ chain ++ [n]
      · simp only [getRefAux, hl, if_pos hmem, RefOut.loopback.injEq] at h
        obtain ⟨hs, hc⟩ := h
        subst hs
        subst hc
        refine ⟨rfl, ?_, ?_, chain ++ [n], t, by simp, hmem⟩
        · rcases chain with _ | ⟨z, zs⟩ <;> simpa using hhead
        · have := isStepChain_snoc (m := m) (l := chain) (a := n) (b := t) hchain hl
          simpa using this
      · simp only [getRefAux, hl, if_neg hmem] at h
        have hstep : isStepChain m ((chain ++ [n]) ++ [t]) := by
          have := isStepChain_snoc (m := m) (l := chain) (a := n) (b := t) hchain hl
          simpa using this
        have hhead' : ((chain ++ [n]) ++ [t]).head? = some start := by
          rcases chain with _ | ⟨z, zs⟩ <;> simpa using hhead
        exact ih t (chain ++ [n]) s c hstep hhead' h

theorem getRef_loopback {m : RMap} {n s : String} {c : List String}
    (h : _getRef m n = RefOut.loopback s c) :
    s = n ∧ c.head? = some n ∧ isStepChain m c ∧ ∃ c₀ x, c = c₀ ++ [x] ∧ x ∈ c₀ := by
  exact getRefAux_loopback_chain m n (m.length + 1) n [] s c
    (by simp [isStepChain]) (by simp) h

/-! ## Congruence, view-construction and permutation lemmas -/

theorem getRefAux_congr {m1 m2 : RMap} (h : ∀ k, dlookup m1 k = dlookup m2 k)
    (start : String) :
    ∀ (fuel : Nat) (n : String) (chain : List String),
      getRefAux m1 start fuel n chain = getRefAux m2 start fuel n chain := by
  intro fuel
  induction fuel with
  | zero => intro n chain; rfl
  | succ fuel ih =>
    intro n chain
    simp only [getRefAux, ← h n]
    rcases hl : dlookup m1 n with _ | t
    · rfl
    · by_cases hmem : t ∈ chain ++ [n]
      · simp [hmem]
      · simp only [if_neg hmem]
        exact ih t (chain ++ [n])

theorem getRef_congr {m1 m2 : RMap} (h : ∀ k, dlookup m1 k = dlookup m2 k)
    (hlen : m1.length = m2.length) (n : String) : _getRef m1 n = _getRef m2 n := by
  rw [_getRef, _getRef, hlen]
  exact getRefAux_congr h n (m2.length + 1) n []

theorem getRef_ok_of_not_key {m : RMap} {n : String} (h : dlookup m n = none) :
    _getRef m n = RefOut.ok n := by
  simp [_getRef, getRefAux, h]

theorem getRef_isOk_of_acyclic {m : RMap}
    (hacyc : ∀ k ∈ dkeys m, (_getRef m k).isOk = true) (n : String) :
    (_getRef m n).isOk = true := by
  rcases hl : dlookup m n with _ | t
  · rw [getRef_ok_of_not_key hl]
    rfl
  · exact hacyc n ((dlookup_isSome_iff m n).mp (by simp [hl]))

theorem resolveEntries_ok_of_acyclic {m : RMap}
    (hacyc : ∀ k ∈ dkeys m, (_getRef m k).isOk = true) (l : List (String × String)) :
    ∃ res, resolveEntries m l = Except.ok res := by
  induction l with
  | nil => exact ⟨[], rfl⟩
  | cons p rest ih =>
    obtain ⟨s, t⟩ := p
    have hok := getRef_isOk_of_acyclic hacyc t
    rcases hg : _getRef m t with r | ⟨st, c⟩ | _
    · obtain ⟨res, hres⟩ := ih
      exact ⟨(s, r) :: res, by simp [resolveEntries, hg, hres]⟩
    · rw [hg] at hok
      exact absurd hok (by simp [RefOut.isOk])
    · rw [hg] at hok
      exact absurd hok (by simp [RefOut.isOk])

theorem resolveEntries_error_of_failure {m : RMap} {l : List (String × String)}
    {s t : String} (hmem : (s, t) ∈ l) (hfail : (_getRef m t).isOk = false) :
    ∃ e, resolveEntries m l = Except.error e := by
  induction l with
  | nil => simp at hmem
  | cons p rest ih =>
    obtain ⟨s0, t0⟩ := p
    rcases hg : _getRef m t0 with r | ⟨st, c⟩ | _
    · rcases List.mem_cons.mp hmem with h | h
      · rw [Prod.mk.injEq] at h
        obtain ⟨h1, h2⟩ := h
        subst h1
        subst h2
        rw [hg] at hfail
        exact absurd hfail (by simp [RefOut.isOk])
      · obtain ⟨e, he⟩ := ih h
        exact ⟨e, by simp [resolveEntries, hg, he]⟩
    · exact ⟨(st, c), by simp [resolveEntries, hg]⟩
    · exact ⟨(t0, []), by simp [resolveEntries, hg]⟩

theorem resolveEntries_ok_dlookup {m : RMap} {l : List (String × String)} {res : RMap}
    (h : resolveEntries m l = Except.ok res) (k : String) :
    (dlookup l k = none → dlookup res k = none) ∧
      (∀ t, dlookup l k = some t →
        ∃ r, _getRef m t = RefOut.ok r ∧ dlookup res k = some r) := by
  induction l generalizing res with
  | nil =>
    simp only [resolveEntries, Except.ok.injEq] at h
    subst h
    exact ⟨fun _ => rfl, fun t ht => by simp [dlookup] at ht⟩
  | cons p rest ih =>
    obtain ⟨s0, t0⟩ := p
    rcases hg : _getRef m t0 with r | ⟨st, c⟩ | _ <;>
      simp only [resolveEntries, hg] at h
    · rcases hrest : resolveEntries m rest with e | res0 <;> rw [hrest] at h
      · exact Except.noConfusion h
      · rw [Except.ok.injEq] at h
        subst h
        obtain ⟨ih1, ih2⟩ := ih hrest
        by_cases h0 : s0 = k
        · subst h0
          refine ⟨fun hc => ?_, fun t ht => ?_⟩
          · simp [dlookup] at hc
          · simp [dlookup] at ht
            subst ht
            exact ⟨r, hg, by simp [dlookup]⟩
        · refine ⟨fun hc => ?_, fun t ht => ?_⟩
          · simp only [dlookup, if_neg h0] at hc ⊢
            exact ih1 hc
          · simp only [dlookup, if_neg h0] at ht ⊢
            exact ih2 t ht
    · exact Except.noConfusion h
    · exact Except.noConfusion h

theorem insertByKey_perm (p : String × String) (l : List (String × String)) :
    (insertByKey p l).Perm (p :: l) := by
  induction l with
  | nil => simp [insertByKey]
  | cons q qs ih =>
    by_cases h : q.1 < p.1
    · rw [insertByKey, if_pos h]
      exact (ih.cons q).trans (List.Perm.swap p q qs)
    · rw [insertByKey, if_neg h]

theorem sortByKey_perm (l : List (String × String)) : (sortByKey l).Perm l := by
  induction l with
  | nil => simp [sortByKey]
  | cons p rest ih =>
    rw [sortByKey, List.foldr_cons]
    exact (insertByKey_perm p _).trans (ih.cons p)

theorem dlookup_congr_of_perm {m1 m2 : RMap} (hp : m1.Perm m2)
    (hn : (dkeys m1).Nodup) (k : String) : dlookup m1 k = dlookup m2 k := by
  have hn2 : (dkeys m2).Nodup := ((hp.map Prod.fst).nodup_iff).mp hn
  rcases h1 : dlookup m1 k with _ | v
  · rcases h2 : dlookup m2 k with _ | w
    · rfl
    · exfalso
      have hmem : (k, w) ∈ m1 := hp.symm.subset (dlookup_mem h2)
      rw [dlookup_eq_none_iff] at h1
      exact h1 (mem_dkeys.mpr ⟨w, hmem⟩)
  · have hmem : (k, v) ∈ m2 := hp.subset (dlookup_mem h1)
    exact (dlookup_eq_some_of_mem_nodup hn2 hmem).symm

/-! ## Remaining helper lemmas -/

theorem loopback_incons_eq_none_iff (m : RMap) :
    _get_loopback_inconsistencies m = none ↔ ∀ k ∈ dkeys m, (_getRef m k).isOk = true := by
  have hmain : _get_loopback_inconsistencies m = none ↔
      ((dkeys m).filterMap fun k => match _getRef m k with
        | RefOut.loopback s c => some (("Loopback detected", s, c) : Inconsistency)
        | _ => none) = [] := by
    simp only [_get_loopback_inconsistencies]
    split <;> simp_all
  rw [hmain, List.filterMap_eq_nil_iff]
  constructor
  · intro h k hk
    have hnone := h k hk
    rcases hg : _getRef m k with r | ⟨s, c⟩ | _
    · simp [RefOut.isOk]
    · rw [hg] at hnone
      simp at hnone
    · exact absurd hg (getRef_ne_noFuel m k)
  · intro h k hk
    have hok := h k hk
    rcases hg : _getRef m k with r | ⟨s, c⟩ | _
    · simp [hg]
    · rw [hg] at hok
      exact absurd hok (by simp [RefOut.isOk])
    · simp [hg]

theorem loopback_incons_complete {m : RMap} {k s : String} {c : List String}
    (hk : k ∈ dkeys m) (hg : _getRef m k = RefOut.loopback s c) :
    ∃ l, _get_loopback_inconsistencies m = some l ∧ ("Loopback detected", s, c) ∈ l := by
  have hmem : (("Loopback detected", s, c) : Inconsistency) ∈
      (dkeys m).filterMap fun k => match _getRef m k with
        | RefOut.loopback s c => some (("Loopback detected", s, c) : Inconsistency)
        | _ => none :=
    List.mem_filterMap.mpr ⟨k, hk, by simp [hg]⟩
  have hne : ((dkeys m).filterMap fun k => match _getRef m k with
      | RefOut.loopback s c => some (("Loopback detected", s, c) : Inconsistency)
      | _ => none) ≠ [] := by
    intro h0
    rw [h0] at hmem
    exact List.not_mem_nil _ hmem
  refine ⟨_, ?_, hmem⟩
  simp only [_get_loopback_inconsistencies]
  simp only [if_neg hne]

/-- Keys of an (initialized) remapping index are unique, as they are in any
Python dict. -/
def idxNodup (nm : NamesMap) : Prop :=
  ∀ m, nm._remappingIndex = some m → (dkeys m).Nodup

theorem idx1_nodup {nm : NamesMap} (hwf : idxNodup nm) (b : Bool) :
    (dkeys (match (if b then none else nm._remappingIndex) with
      | none => ([] : RMap) | some m => m)).Nodup := by
  rcases b with _ | _
  · rcases hr : nm._remappingIndex with _ | m
    · simp [hr]
    · simpa [hr] using hwf m hr
  · simp

theorem lastVal_eq_dlookup_of_nodup {l : List (String × String)}
    (hn : (dkeys l).Nodup) (k : String) : lastVal l k = dlookup l k := by
  induction l with
  | nil => rfl
  | cons p rest ih =>
    obtain ⟨k0, v0⟩ := p
    simp only [dkeys_cons, List.nodup_cons] at hn
    by_cases h0 : k0 = k
    · subst h0
      have hrest : lastVal rest k0 = none := by
        rw [ih hn.2, dlookup_eq_none_iff]
        exact hn.1
      simp [lastVal, dlookup, hrest]
    · simp only [lastVal, dlookup, if_neg h0, ih hn.2]
      rcases hr : dlookup rest k with _ | v
      · simp [h0]
      · simp

theorem contains_iff {l : List String} {a : String} : l.contains a = true ↔ a ∈ l :=
  List.elem_iff

/-! ## Claim C1 -/

/-- C1: whenever the chained dereference of a name through the remapping index
revisits a name already in the current chain, `_getRef` fails with the
loopback (`CycleDetected`) error carrying the start name and the full
dereference chain including the repeated name (and never silently returns: a
successful result is a genuine endpoint, and fuel exhaustion is impossible);
`getMap(remap=True)` propagates any such failure, so the whole view
construction aborts and no partially-resolved map is returned. -/
theorem C1_cycle_detection_propagation (m : RMap) (n : String) (nm : NamesMap) :
    _getRef m n ≠ RefOut.noFuel ∧
    (∀ r, _getRef m n = RefOut.ok r → dlookup m r = none) ∧
    (∀ s c, _getRef m n = RefOut.loopback s c →
      s = n ∧ c.head? = some n ∧ isStepChain m c ∧ ∃ c₀ x, c = c₀ ++ [x] ∧ x ∈ c₀) ∧
    (nm._remappingIndex = some m →
      (∃ s t, (s, t) ∈ nm._map_prim_norm ∧ (_getRef m t).isOk = false) →
      ∃ e, getMap nm true = Except.error e) := by
  refine ⟨getRef_ne_noFuel m n, fun r h => getRef_ok_endpoint h,
    fun s c h => getRef_loopback h, ?_⟩
  rintro hidx ⟨s, t, hmem, hfail⟩
  obtain ⟨e, he⟩ := resolveEntries_error_of_failure hmem hfail
  exact ⟨e, by simp [getMap, hidx, he]⟩

/-- Witness for C1 at the index `{a: b, b: a}` and base map `{p: a}`. -/
theorem C1_cycle_detection_propagation_witness :
    ∃ e, getMap ⟨none, [("p", "a")], some [("a", "b"), ("b", "a")]⟩ true =
      Except.error e :=
  (C1_cycle_detection_propagation [("a", "b"), ("b", "a")] "a"
      ⟨none, [("p", "a")], some [("a", "b"), ("b", "a")]⟩).2.2.2 rfl
    ⟨"p", "a", by decide, by decide⟩

/-! ## Claim C2 -/

/-- C2: every primitive `p` inserted at construction with normalization
function `f` is mapped by the unresolved view `getMap(remap=False)` exactly to
`f p`. -/
theorem C2_unresolved_view (names : List String) (f : String → String)
    (ri : Option RMap) (p : String) (hp : p ∈ names) :
    ∃ base, getMap (mkNamesMap names f ri) false = Except.ok base ∧
      dlookup base p = some (f p) := by
  have hbase : dlookup (dictOfList (names.map fun n => (n, f n))) p = some (f p) := by
    rw [dlookup_dictOfList]
    exact lastVal_map_self f hp
  rcases ri with _ | m
  · exact ⟨_, rfl, hbase⟩
  · exact ⟨_, rfl, hbase⟩

/-- Witness for C2 at `names = [x, y]`, `f = (· ++ \"!\")`, `p = x`. -/
theorem C2_unresolved_view_witness :
    ∃ base, getMap (mkNamesMap ["x", "y"] (fun s => s ++ "!") none) false =
      Except.ok base ∧ dlookup base "x" = some "x!" :=
  C2_unresolved_view ["x", "y"] (fun s => s ++ "!") none "x" (by decide)

/-! ## Claim C3 -/

/-- C3: `getInconsistencies` (via `_get_loopback_inconsistencies`) attempts to
resolve every key of the remapping index, returns `none` exactly when no key
is cyclic, and accumulates every cycle failure — each cyclic key contributes a
record with its start name and chain; and `remap` returns exactly the
consistency check performed on the index resulting from its mutation. -/
theorem C3_exhaustive_consistency_scan (m : RMap) (nm : NamesMap)
    (remaps : List (String × String)) (b : Bool) :
    (_get_loopback_inconsistencies m = none ↔
      ∀ k ∈ dkeys m, (_getRef m k).isOk = true) ∧
    (∀ k ∈ dkeys m, ∀ s c, _getRef m k = RefOut.loopback s c →
      s = k ∧ ∃ l, _get_loopback_inconsistencies m = some l ∧
        ("Loopback detected", s, c) ∈ l) ∧
    (∃ m', (remap nm remaps b).1._remappingIndex = some m' ∧
      (remap nm remaps b).2.2 = getInconsistencies m') := by
  refine ⟨loopback_incons_eq_none_iff m, ?_, ⟨_, rfl, rfl⟩⟩
  intro k hk s c hg
  exact ⟨(getRef_loopback hg).1, loopback_incons_complete hk hg⟩

/-- Witness for C3 at the cyclic index `{a: b, b: a}`. -/
theorem C3_exhaustive_consistency_scan_witness :
    ∃ l, _get_loopback_inconsistencies [("a", "b"), ("b", "a")] = some l ∧
      ("Loopback detected", "a", ["a", "b", "a"]) ∈ l :=
  (((C3_exhaustive_consistency_scan [("a", "b"), ("b", "a")] ⟨none, [], none⟩
      [] false).2.1) "a" (by decide) "a" ["a", "b", "a"] (by decide)).2

/-! ## Claim C4 -/

/-- C4: after every call to `remap` the remapping index contains no self-loop
(no key maps directly to itself), and remapping `(X, X)` leaves `X` absent
from the remapping index afterward. -/
theorem C4_no_selfloops_after_remap (nm : NamesMap) (remaps : List (String × String))
    (b : Bool) (X : String) (hwf : idxNodup nm) :
    ∃ m', (remap nm remaps b).1._remappingIndex = some m' ∧
      (∀ k, dlookup m' k ≠ some k) ∧
      (remaps = [(X, X)] → dlookup m' X = none) := by
  refine ⟨_, rfl, fun k hk => ?_, fun hX => ?_⟩
  · obtain ⟨hmem, hpf⟩ := dlookup_filter_mem hk
    simp at hpf
  · subst hX
    have hnd1 := idx1_nodup hwf b
    have hnd2 : (dkeys (dinsert (match (if b then none else nm._remappingIndex) with
        | none => ([] : RMap) | some m => m) X X)).Nodup :=
      nodup_dkeys_dinsert hnd1 X X
    have hlk : dlookup (dinsert (match (if b then none else nm._remappingIndex) with
        | none => ([] : RMap) | some m => m) X X) X = some X := by
      rw [dlookup_dinsert]
      simp
    show dlookup (_remove_selfloops (List.foldl _ _ [(X, X)])) X = none
    simp only [List.foldl_cons, List.foldl_nil]
    exact dlookup_filter_none_of_nodup hnd2 hlk (by simp)

/-- Witness for C4: remapping `(x, x)` on an index `{x: y}`. -/
theorem C4_no_selfloops_after_remap_witness :
    ∃ m', (remap ⟨none, [], some [("x", "y")]⟩ [("x", "x")] false).1._remappingIndex =
        some m' ∧
      (∀ k, dlookup m' k ≠ some k) ∧
      ([(("x" : String), ("x" : String))] = [("x", "x")] → dlookup m' "x" = none) :=
  C4_no_selfloops_after_remap ⟨none, [], some [("x", "y")]⟩ [("x", "x")] false "x"
    (by intro m hm; cases hm; decide)

/-! ## Claim C5 -/

/-- C5: when a source `s` occurs more than once in a remap batch, its last
binding `t` determines the stored result (`s ↦ t`, removed when it is a
self-loop), and the non-fatal duplicate-key warning reported by `remap` names
`s`; e.g. `remap [(A,B),(A,C)]` ends with `A ↦ C`. -/
theorem C5_duplicate_sources_last_wins (nm : NamesMap) (remaps : List (String × String))
    (b : Bool) (s t : String) (hwf : idxNodup nm)
    (hdup : 1 < (remaps.map Prod.fst).count s)
    (hlast : lastVal remaps s = some t) :
    s ∈ (remap nm remaps b).2.1 ∧
    ∃ m', (remap nm remaps b).1._remappingIndex = some m' ∧
      dlookup m' s = if t = s then none else some t := by
  have hmem_src : s ∈ remaps.map Prod.fst := by
    by_contra h
    rw [lastVal_eq_none_of_not_mem h] at hlast
    exact Option.noConfusion hlast
  constructor
  · show s ∈ duplicatedKeys remaps
    exact List.mem_filter.mpr ⟨mem_firstDedup.mpr hmem_src, by simpa using hdup⟩
  · refine ⟨_, rfl, ?_⟩
    have hnd1 := idx1_nodup hwf b
    have hidx2 : dlookup (remaps.foldl (fun m p => dinsert m p.1 p.2)
        (match (if b then none else nm._remappingIndex) with
          | none => ([] : RMap) | some m => m)) s = some t := by
      rw [dlookup_foldl_dinsert, hlast]
    by_cases hts : t = s
    · subst hts
      simp only [if_pos rfl]
      exact dlookup_filter_none_of_nodup (nodup_dkeys_foldl_dinsert hnd1 remaps)
        hidx2 (by simp)
    · simp only [if_neg hts]
      refine dlookup_filter_of_pred hidx2 ?_
      simp only [Bool.not_eq_true']
      simpa using fun h => hts h.symm

/-- Witness for C5: `remap [(A,B),(A,C)]` warns about `A` and stores `A ↦ C`. -/
theorem C5_duplicate_sources_last_wins_witness :
    "A" ∈ (remap ⟨none, [], none⟩ [("A", "B"), ("A", "C")] false).2.1 ∧
    ∃ m', (remap ⟨none, [], none⟩ [("A", "B"), ("A", "C")] false).1._remappingIndex =
        some m' ∧
      dlookup m' "A" = if ("C" : String) = "A" then none else some "C" :=
  C5_duplicate_sources_last_wins ⟨none, [], none⟩ [("A", "B"), ("A", "C")] false
    "A" "C" (by intro m hm; cases hm) (by decide) (by decide)

/-! ## Claim C6 -/

/-- C6: for a resolver in an acyclic state, deserializing the record produced
by `write_toJson(flatten=False)` yields a resolver with the same base map, the
same remapping index and the same resolved view (all as mappings; the record's
keys are sorted by `json.dump(sort_keys=True)`). -/
theorem C6_serialize_roundtrip (nm : NamesMap) (m : RMap) (f' : Option (String → String))
    (hidx : nm._remappingIndex = some m)
    (hnb : (dkeys nm._map_prim_norm).Nodup)
    (hnm : (dkeys m).Nodup)
    (hacyc : ∀ k ∈ dkeys m, (_getRef m k).isOk = true) :
    ∃ rec, write_toJson nm false = Except.ok rec ∧
      (∀ p, dlookup (read_NamesMap_fromJson rec f')._map_prim_norm p =
        dlookup nm._map_prim_norm p) ∧
      (∃ m2, (read_NamesMap_fromJson rec f')._remappingIndex = some m2 ∧
        ∀ k, dlookup m2 k = dlookup m k) ∧
      (∃ v' v, getMap (read_NamesMap_fromJson rec f') true = Except.ok v' ∧
        getMap nm true = Except.ok v ∧ ∀ p, dlookup v' p = dlookup v p) := by
  have hnb' : (dkeys (sortByKey nm._map_prim_norm)).Nodup :=
    (((sortByKey_perm nm._map_prim_norm).map Prod.fst).nodup_iff).mpr hnb
  have hnm' : (dkeys (sortByKey m)).Nodup :=
    (((sortByKey_perm m).map Prod.fst).nodup_iff).mpr hnm
  have hlkb : ∀ p, dlookup (sortByKey nm._map_prim_norm) p = dlookup nm._map_prim_norm p :=
    fun p => dlookup_congr_of_perm (sortByKey_perm _) hnb' p
  have hlkm : ∀ k, dlookup (sortByKey m) k = dlookup m k :=
    fun k => dlookup_congr_of_perm (sortByKey_perm m) hnm' k
  have hgr : ∀ n, _getRef (sortByKey m) n = _getRef m n :=
    fun n => getRef_congr hlkm (sortByKey_perm m).length_eq n
  have hacyc' : ∀ k ∈ dkeys (sortByKey m), (_getRef (sortByKey m) k).isOk = true := by
    intro k _
    rw [hgr k]
    exact getRef_isOk_of_acyclic hacyc k
  obtain ⟨v', hv'⟩ := resolveEntries_ok_of_acyclic hacyc' (sortByKey nm._map_prim_norm)
  obtain ⟨v, hv⟩ := resolveEntries_ok_of_acyclic hacyc nm._map_prim_norm
  refine ⟨⟨sortByKey nm._map_prim_norm, some (sortByKey m)⟩, ?_, hlkb,
    ⟨sortByKey m, rfl, hlkm⟩, v', v, ?_, ?_, ?_⟩
  · simp [write_toJson, hidx]
  · exact hv'
  · simp only [getMap, hidx]
    simpa using hv
  · intro p
    have h1 := resolveEntries_ok_dlookup hv' p
    have h2 := resolveEntries_ok_dlookup hv p
    rcases hb : dlookup nm._map_prim_norm p with _ | t
    · rw [h1.1 (by rw [hlkb p, hb]), h2.1 hb]
    · obtain ⟨r1, hg1, hl1⟩ := h1.2 t (by rw [hlkb p, hb])
      obtain ⟨r2, hg2, hl2⟩ := h2.2 t hb
      rw [hgr t, hg2] at hg1
      injection hg1 with hr
      subst hr
      rw [hl1, hl2]

/-- Witness for C6 at base `{p: a}`, index `{a: b}`. -/
theorem C6_serialize_roundtrip_witness :
    ∃ rec, write_toJson ⟨none, [("p", "a")], some [("a", "b")]⟩ false = Except.ok rec ∧
      (∀ p, dlookup (read_NamesMap_fromJson rec none)._map_prim_norm p =
        dlookup [("p", "a")] p) ∧
      (∃ m2, (read_NamesMap_fromJson rec none)._remappingIndex = some m2 ∧
        ∀ k, dlookup m2 k = dlookup [("a", "b")] k) ∧
      (∃ v' v, getMap (read_NamesMap_fromJson rec none) true = Except.ok v' ∧
        getMap ⟨none, [("p", "a")], some [("a", "b")]⟩ true = Except.ok v ∧
        ∀ p, dlookup v' p = dlookup v p) :=
  C6_serialize_roundtrip ⟨none, [("p", "a")], some [("a", "b")]⟩ [("a", "b")] none
    rfl (by decide) (by decide) (by decide)

/-! ## Claim C7 -/

/-- C7 counterexample: for the resolver constructed with the remapping index
`{a: a}` (a state the constructor admits verbatim), `remap([])` changes the
remapping index — the pre-existing self-loop is stripped — and the results of
subsequent queries change: `getMap(remap=True)` raised the loopback error
before the call and succeeds after it. -/
theorem C7_remap_empty_counterexample :
    (remap ⟨none, [("p", "a")], some [("a", "a")]⟩ [] false).1._remappingIndex ≠
      (⟨none, [("p", "a")], some [("a", "a")]⟩ : NamesMap)._remappingIndex ∧
    getMap ⟨none, [("p", "a")], some [("a", "a")]⟩ true =
      Except.error ("a", ["a", "a"]) ∧
    getMap (remap ⟨none, [("p", "a")], some [("a", "a")]⟩ [] false).1 true =
      Except.ok [("p", "a")] := by
  refine ⟨by decide, rfl, rfl⟩

/-- C7 amended: `remap([])` always leaves the base map (and the normalization
function) unchanged; it leaves the whole resolver state unchanged provided the
remapping index is already initialized (not `None`) and contains no
self-loops.  In general, `remap([])` initializes a missing index to the empty
dict and strips pre-existing self-loop entries. -/
theorem C7_remap_empty_amended (nm : NamesMap) (m : RMap)
    (hidx : nm._remappingIndex = some m)
    (hs : ∀ p ∈ m, p.1 ≠ p.2) :
    (remap nm [] false).1 = nm ∧ (remap nm [] false).2.1 = [] := by
  have hm : _remove_selfloops m = m := by
    rw [_remove_selfloops, List.filter_eq_self]
    intro p hp
    simpa using hs p hp
  constructor
  · cases nm with
    | mk f base idx =>
      simp only [NamesMap.mk.injEq] at hidx ⊢
      subst hidx
      simp [remap, hm]
  · rfl

/-- Witness for the amended C7 at the self-loop-free index `{a: b}`. -/
theorem C7_remap_empty_amended_witness :
    (remap ⟨none, [("p", "a")], some [("a", "b")]⟩ [] false).1 =
      ⟨none, [("p", "a")], some [("a", "b")]⟩ ∧
    (remap ⟨none, [("p", "a")], some [("a", "b")]⟩ [] false).2.1 = [] :=
  C7_remap_empty_amended ⟨none, [("p", "a")], some [("a", "b")]⟩ [("a", "b")]
    rfl (by decide)

/-! ## Claim C8 -/

/-- C8: a resolver rebuilt from persisted state without a normalization
function fails on any (non-empty) name insertion with the configuration error
(the absent function cannot be called), while `remap` remains fully usable —
its results coincide with those of the same resolver equipped with any
normalization function. -/
theorem C8_missing_normalization_function (rec : JsonRecord) (names : List String)
    (u b : Bool) (remaps : List (String × String)) (f : String → String)
    (hne : names ≠ []) :
    addNames (read_NamesMap_fromJson rec none) names none u =
      Except.error PyError.configurationError ∧
    (remap (read_NamesMap_fromJson rec none) remaps b).1._remappingIndex =
      (remap (read_NamesMap_fromJson rec (some f)) remaps b).1._remappingIndex ∧
    (remap (read_NamesMap_fromJson rec none) remaps b).2 =
      (remap (read_NamesMap_fromJson rec (some f)) remaps b).2 := by
  refine ⟨?_, rfl, rfl⟩
  simp [addNames, read_NamesMap_fromJson, hne]

/-- Witness for C8: reloaded resolver without a function, inserting `[n]`. -/
theorem C8_missing_normalization_function_witness :
    addNames (read_NamesMap_fromJson ⟨[("p", "a")], some []⟩ none) ["n"] none false =
      Except.error PyError.configurationError ∧
    (remap (read_NamesMap_fromJson ⟨[("p", "a")], some []⟩ none)
        [("a", "b")] false).1._remappingIndex =
      (remap (read_NamesMap_fromJson ⟨[("p", "a")], some []⟩ (some fun s => s))
        [("a", "b")] false).1._remappingIndex ∧
    (remap (read_NamesMap_fromJson ⟨[("p", "a")], some []⟩ none)
        [("a", "b")] false).2 =
      (remap (read_NamesMap_fromJson ⟨[("p", "a")], some []⟩ (some fun s => s))
        [("a", "b")] false).2 :=
  C8_missing_normalization_function ⟨[("p", "a")], some []⟩ ["n"] false false
    [("a", "b")] (fun s => s) (by decide)

/-! ## Claim C9 -/

theorem contains_eq_false_iff {l : List String} {a : String} :
    l.contains a = false ↔ a ∉ l := by
  constructor
  · intro h hm
    rw [contains_iff.mpr hm] at h
    exact Bool.noConfusion h
  · intro hm
    rcases h : l.contains a with _ | _
    · rfl
    · exact absurd (contains_iff.mp h) hm

theorem dupdate_keep {base d : RMap} (hd : ∀ q ∈ d, q.1 ∉ dkeys base)
    {p : String} (hp : p ∈ dkeys base) :
    dlookup (dupdate base d) p = dlookup base p := by
  rw [dupdate, dlookup_foldl_dinsert]
  have hnone : lastVal d p = none := lastVal_eq_none_of_not_mem (by
    intro hmem
    rcases List.mem_map.mp hmem with ⟨q, hq, he⟩
    exact hd q hq (by rw [he]; exact hp))
  rw [hnone]

theorem dupdate_new {base d : RMap} (hdn : (dkeys d).Nodup)
    {n v : String} (hv : dlookup d n = some v) :
    dlookup (dupdate base d) n = some v := by
  rw [dupdate, dlookup_foldl_dinsert, lastVal_eq_dlookup_of_nodup hdn, hv]

/-- C9: `addNames` with `updateExistingKeys=False` leaves every primitive
already present in the base map mapped to its existing normalized value (even
when a different normalization function is supplied), and inserts exactly the
names not already present, normalized with the effective function. -/
theorem C9_update_existing_false_frame (nm : NamesMap) (names : List String)
    (g : Option (String → String)) (f : String → String)
    (hf : (match g with | some f0 => some f0 | none => nm._normalizationFunc) = some f) :
    ∃ nm', addNames nm names g false = Except.ok nm' ∧
      nm'._normalizationFunc = nm._normalizationFunc ∧
      nm'._remappingIndex = nm._remappingIndex ∧
      (∀ p, p ∈ dkeys nm._map_prim_norm →
        dlookup nm'._map_prim_norm p = dlookup nm._map_prim_norm p) ∧
      (∀ n, n ∈ names → n ∉ dkeys nm._map_prim_norm →
        dlookup nm'._map_prim_norm n = some (f n)) := by
  have hred : addNames nm names g false = Except.ok { nm with _map_prim_norm := dupdate nm._map_prim_norm ((dictOfList (names.map fun n => (n, f n))).filter fun p => !((dkeys nm._map_prim_norm).contains p.1)) } := by
    simp only [addNames, hf, Bool.false_eq_true, if_false]
  have hd : ∀ q ∈ (dictOfList (names.map fun n => (n, f n))).filter
      (fun p => !((dkeys nm._map_prim_norm).contains p.1)),
      q.1 ∉ dkeys nm._map_prim_norm := by
    intro q hq
    rw [List.mem_filter] at hq
    have hc : (dkeys nm._map_prim_norm).contains q.1 = false := by
      simpa using hq.2
    exact contains_eq_false_iff.mp hc
  have hd0nodup : (dkeys (dictOfList (names.map fun n => (n, f n)))).Nodup :=
    nodup_dkeys_foldl_dinsert (by simp) _
  refine ⟨_, hred, rfl, rfl, ?_, ?_⟩
  · intro p hp
    exact dupdate_keep hd hp
  · intro n hn hnmem
    have hd0 : dlookup (dictOfList (names.map fun n => (n, f n))) n = some (f n) := by
      rw [dlookup_dictOfList]
      exact lastVal_map_self f hn
    have hdf : dlookup ((dictOfList (names.map fun n => (n, f n))).filter
        (fun p => !((dkeys nm._map_prim_norm).contains p.1))) n = some (f n) := by
      refine dlookup_filter_of_pred hd0 ?_
      simp only [Bool.not_eq_true']
      exact contains_eq_false_iff.mpr hnmem
    exact dupdate_new (nodup_dkeys_filter hd0nodup _) hdf

/-- Witness for C9: base `{p: OLD}`, inserting `[p, q]` with a fresh function
leaves `p ↦ OLD` and adds `q ↦ q!`. -/
theorem C9_update_existing_false_frame_witness :
    ∃ nm', addNames ⟨some (fun s => s ++ "!"), [("p", "OLD")], none⟩ ["p", "q"]
        none false = Except.ok nm' ∧
      nm'._normalizationFunc =
        (⟨some (fun s => s ++ "!"), [("p", "OLD")], none⟩ : NamesMap)._normalizationFunc ∧
      nm'._remappingIndex = none ∧
      (∀ p, p ∈ dkeys [("p", "OLD")] →
        dlookup nm'._map_prim_norm p = dlookup [("p", "OLD")] p) ∧
      (∀ n, n ∈ ["p", "q"] → n ∉ dkeys [("p", "OLD")] →
        dlookup nm'._map_prim_norm n = some (n ++ "!")) :=
  C9_update_existing_false_frame ⟨some (fun s => s ++ "!"), [("p", "OLD")], none⟩
    ["p", "q"] none (fun s => s ++ "!") rfl

/-! ## Claim C10 -/

/-- C10: `setEndpoint` is partial at the public interface — on an initialized
remapping index, a present key is removed (other keys untouched) and its
previously mapped value returned, while an absent key raises an uncaught
`KeyError` rather than returning an empty or neutral result. -/
theorem C10_setEndpoint_pop_or_keyerror (nm : NamesMap) (m : RMap) (k : String)
    (hidx : nm._remappingIndex = some m) (hn : (dkeys m).Nodup) :
    (∀ v, dlookup m k = some v →
      ∃ nm' m', setEndpoint nm k = Except.ok (v, nm') ∧
        nm'._remappingIndex = some m' ∧
        nm'._map_prim_norm = nm._map_prim_norm ∧
        nm'._normalizationFunc = nm._normalizationFunc ∧
        dlookup m' k = none ∧
        (∀ k', k' ≠ k → dlookup m' k' = dlookup m k')) ∧
    (dlookup m k = none → setEndpoint nm k = Except.error PyError.keyError) := by
  constructor
  · intro v hv
    rcases hp : dpop m k with _ | ⟨w, m'⟩
    · rw [dpop_eq_none_iff] at hp
      rw [hp] at hv
      exact Option.noConfusion hv
    · obtain ⟨hp1, hp2, hp3⟩ := dpop_some hp
      rw [hv] at hp1
      injection hp1 with hw
      subst hw
      refine ⟨{ nm with _remappingIndex := some m' }, m', ?_, rfl, rfl, rfl, hp3 hn, hp2⟩
      simp [setEndpoint, hidx, hp]
  · intro hnone
    have hp : dpop m k = none := (dpop_eq_none_iff m k).mpr hnone
    simp [setEndpoint, hidx, hp]

/-- Witness for C10 on the index `{a: b}`: popping `a` succeeds, popping `z`
raises `KeyError`. -/
theorem C10_setEndpoint_pop_or_keyerror_witness :
    (∃ nm' m', setEndpoint ⟨none, [], some [("a", "b")]⟩ "a" = Except.ok ("b", nm') ∧
      nm'._remappingIndex = some m' ∧
      nm'._map_prim_norm = (⟨none, [], some [("a", "b")]⟩ : NamesMap)._map_prim_norm ∧
      nm'._normalizationFunc = none ∧
      dlookup m' "a" = none ∧
      (∀ k', k' ≠ "a" → dlookup m' k' = dlookup [("a", "b")] k')) ∧
    setEndpoint ⟨none, [], some [("a", "b")]⟩ "z" = Except.error PyError.keyError :=
  ⟨((C10_setEndpoint_pop_or_keyerror ⟨none, [], some [("a", "b")]⟩ [("a", "b")] "a"
      rfl (by decide)).1 "b" (by decide)),
    ((C10_setEndpoint_pop_or_keyerror ⟨none, [], some [("a", "b")]⟩ [("a", "b")] "z"
      rfl (by decide)).2 (by decide))⟩
